import Mathlib

/-!
# A verification model of `NGS/HiCTools.py`

This file gives a shallow embedding, in Lean 4, of the pure data
transformations performed by the functions of `NGS/HiCTools.py`
(`getExpected`, `assignRegions2d`, `slidingDiamond`, `downSamplePairs`,
`pileToFrame`, `getPairingScore`) and proves properties of them.

Modelling conventions:
* pandas data frames become Lean lists of rows (structures);
* Python dictionaries (used by `downSamplePairs` for its per-sample
  `{"all"/"cis"/"trans"}` tables) become association lists with
  insertion-order preserving update, matching `dict` semantics;
* numpy/pandas floating point values that can be NaN or ±Infinity are
  modelled by the inductive type `PFloat` over exact rationals, so that
  the NaN-propagation rules of numpy (`NaN == NaN` is false, division by
  zero yields ±Infinity or NaN instead of raising) are explicit;
* the random draw of `pandas.DataFrame.sample(n)` (without replacement)
  is modelled by an explicit `sampler` parameter, assumed only to return
  `n` of the given rows without replacement (`SamplerOK`);
* calls into external collaborator libraries (cooler / cooltools /
  bioframe) are modelled by abstract inputs to the embedded functions,
  constrained only by the documented guarantees of those collaborators
  where a proof needs them.
-/

namespace HiCTools

/-- A numpy/pandas floating-point value: an exact rational, `inf`,
`-inf`, or `NaN`.  Arithmetic on this type mirrors IEEE semantics where
the source relies on them (division by zero, NaN propagation). -/
inductive PFloat where
  | val (q : ℚ)
  | inf
  | neginf
  | nan
deriving DecidableEq, Repr

/-- The read-type tag `"cis"` / `"trans"` that `downSamplePairs` writes
into the `rType` column (HiCTools.py lines 225 and 227). -/
inductive RType where
  | cis
  | trans
deriving DecidableEq, Repr

/-- One read-pair row of a pairs table.  Only the columns the code
touches (`pos1`, `pos2`) are modelled explicitly. -/
structure PairRow where
  pos1 : ℤ
  pos2 : ℤ
deriving DecidableEq, Repr

/-- A row of the concatenated table after the `rType` column has been
added: the original row together with its tag. -/
abbrev TaggedRow := PairRow × RType

/-- The input of `downSamplePairs` for one sample: the `"cis"` table and
the `"trans"` table (the declared input schema has no `rType` column). -/
structure CisTrans where
  cis : List PairRow
  trans : List PairRow
deriving DecidableEq, Repr

/-- Adding the constant column `rType = t` to a table
(`cisTemp["rType"] = "cis"`, HiCTools.py lines 225/227). -/
def tagRows (rows : List PairRow) (t : RType) : List TaggedRow :=
  rows.map (fun r => (r, t))

/-- The distance filter of HiCTools.py line 231:
`all.loc[(all["pos2"] - all["pos1"]) > Distance, :]`.
Note that the source uses the *signed* difference `pos2 - pos1`,
with no absolute value. -/
def distanceFilter (dist : ℤ) (rows : List TaggedRow) : List TaggedRow :=
  rows.filter (fun rt => decide (dist < rt.1.pos2 - rt.1.pos1))

/-- The per-sample dictionary `outDict[sample]`, mapping the keys
`"all"`, `"cis"`, `"trans"` to tables.  Modelled as an association list
in insertion order, like a Python `dict`. -/
abbrev SDict := List (String × List TaggedRow)

/-- Python `d[k] = v`: update in place if the key exists (keeping its
position), otherwise append the new key at the end. -/
def dictSet (d : SDict) (k : String) (v : List TaggedRow) : SDict :=
  if (d.lookup k).isSome then
    d.map (fun p => if p.1 = k then (k, v) else p)
  else
    d ++ [(k, v)]

/-- Python `d[k]` for a key that is present (every read in
`downSamplePairs` is of a key that was just written). -/
def dictGet (d : SDict) (k : String) : List TaggedRow :=
  (d.lookup k).getD []

/-- Python `d.pop(k)`: remove the key. -/
def dictPop (d : SDict) (k : String) : SDict :=
  d.filter (fun p => decide (p.1 ≠ k))

/-- First phase of the `downSamplePairs` loop body (HiCTools.py lines
224-231): tag the cis and trans tables, concatenate them into the
`"all"` entry, then filter `"all"` on the signed distance. -/
def downSampleP1 (dist : ℤ) (s : CisTrans) : SDict :=
  let d0 := dictSet [] "all" (tagRows s.cis RType.cis ++ tagRows s.trans RType.trans)
  dictSet d0 "all" (distanceFilter dist (dictGet d0 "all"))

/-- The combined cis+trans table of a sample after the distance filter:
the `"all"` entry produced by lines 224-231. -/
def combinedFiltered (dist : ℤ) (s : CisTrans) : List TaggedRow :=
  dictGet (downSampleP1 dist s) "all"

/-- `minReads` (HiCTools.py line 233): the minimum, over all samples, of
the length of the filtered combined table.  `min` over an empty Python
list raises; the model returns 0 there and theorems assume a nonempty
sample dictionary where it matters. -/
def minReadsOf (samples : List (String × CisTrans)) (dist : ℤ) : ℕ :=
  ((samples.map (fun p => (combinedFiltered dist p.2).length)).min?).getD 0

/-- Second phase of `downSamplePairs` (lines 235-242): replace `"all"`
by a random sample of `n` of its rows, split it into the `"cis"` and
`"trans"` entries by the `rType` tag, and pop `"all"`. -/
def downSampleP2 (sampler : List TaggedRow → ℕ → List TaggedRow)
    (n : ℕ) (d : SDict) : SDict :=
  let d1 := dictSet d "all" (sampler (dictGet d "all") n)
  let d2 := dictSet d1 "cis"
    ((dictGet d1 "all").filter (fun rt => decide (rt.2 = RType.cis)))
  let d3 := dictSet d2 "trans"
    ((dictGet d2 "all").filter (fun rt => decide (rt.2 = RType.trans)))
  dictPop d3 "all"

/-- `downSamplePairs` (HiCTools.py lines 216-243), with the random draw
of `DataFrame.sample(n)` abstracted into the `sampler` parameter. -/
def downSamplePairs (sampler : List TaggedRow → ℕ → List TaggedRow)
    (samples : List (String × CisTrans)) (dist : ℤ) :
    List (String × SDict) :=
  let n := minReadsOf samples dist
  samples.map (fun p => (p.1, downSampleP2 sampler n (downSampleP1 dist p.2)))

/-- The state of the caller's `"cis"` table after `downSamplePairs` has
run: line 225 (`cisTemp["rType"] = "cis"`) adds the `rType` column to
the caller's own data frame in place, because `cisTemp` is a reference
to `sampleDict[sample]["cis"]`, not a copy. -/
def downSampleInputCisAfter (s : CisTrans) : List TaggedRow :=
  tagRows s.cis RType.cis

/-- The state of the caller's `"trans"` table after `downSamplePairs`
has run (line 227 adds `rType = "trans"` in place). -/
def downSampleInputTransAfter (s : CisTrans) : List TaggedRow :=
  tagRows s.trans RType.trans

/-- The contract of `pandas.DataFrame.sample(n)` with the default
`replace=False`: whenever `n` does not exceed the table length, the
result has exactly `n` rows drawn from the table without replacement
(a sub-permutation of the rows). -/
def SamplerOK (sampler : List TaggedRow → ℕ → List TaggedRow) : Prop :=
  ∀ l n, n ≤ l.length →
    (sampler l n).length = n ∧ (sampler l n).Subperm l

/-- A concrete sampler satisfying `SamplerOK`: take the first `n` rows. -/
def takeSampler (l : List TaggedRow) (n : ℕ) : List TaggedRow :=
  l.take n

/-! ## `np.median` and sorting -/

/-- Ascending sort of a list of rationals (insertion sort, matching the
order statistics that `np.median` is defined over). -/
def sortQ (l : List ℚ) : List ℚ :=
  l.insertionSort (· ≤ ·)

/-- `np.median` of a one-dimensional array: the middle element of the
sorted data for odd length, the mean of the two middle elements for
even length.  (`np.median` of an empty array is NaN with a warning; the
model returns 0 there, and every theorem that uses `npMedian` assumes a
nonempty argument.) -/
def npMedian (l : List ℚ) : ℚ :=
  if (sortQ l).length % 2 = 1 then (sortQ l).getD ((sortQ l).length / 2) 0
  else
    ((sortQ l).getD ((sortQ l).length / 2 - 1) 0
      + (sortQ l).getD ((sortQ l).length / 2) 0) / 2

/-! ## `slidingDiamond` (HiCTools.py lines 180-198)

The numpy array is modelled as a function `ℕ → ℕ → PFloat` together
with its row count `n`.  The slice `array[i:(i+halfWindow)+1,
i:(i+halfWindow)+1]` is a *view*, so the statement
`diamondArray[np.isinf(diamondArray)] = np.nan` (line 194) writes
through to the caller's array; the model therefore threads the mutated
matrix through the loop and returns it alongside the two result
arrays. -/

/-- `np.isinf`: true on both infinities. -/
def isInf : PFloat → Bool
  | .inf => true
  | .neginf => true
  | _ => false

/-- The in-place effect of line 194 at loop index `i`: every cell of
the `(half+1) × (half+1)` diamond at `(i, i)` whose value is ±Infinity
becomes NaN; all other cells are untouched. -/
def diamondStep (half : ℕ) (m : ℕ → ℕ → PFloat) (i : ℕ) : ℕ → ℕ → PFloat :=
  fun r c =>
    if i ≤ r ∧ r ≤ i + half ∧ i ≤ c ∧ c ≤ i + half ∧ isInf (m r c) = true then
      PFloat.nan
    else m r c

/-- The cells of the diamond `array[i:i+half+1, i:i+half+1]`. -/
def diamondCells (half : ℕ) (m : ℕ → ℕ → PFloat) (i : ℕ) : List PFloat :=
  (List.range (half + 1)).flatMap (fun a =>
    (List.range (half + 1)).map (fun b => m (i + a) (i + b)))

/-- `np.nanmean` over cells that hold no infinity (line 194 has already
replaced every infinity by NaN): the mean of the non-NaN values, or NaN
(`none`) when every cell is NaN. -/
def nanmean (cells : List PFloat) : Option ℚ :=
  let vals := cells.filterMap (fun c =>
    match c with
    | .val q => some q
    | _ => none)
  if vals.length = 0 then none else some (vals.sum / vals.length)

/-- `np.mean(range(i, i+half+1))` (line 197). -/
def rangeMean (i half : ℕ) : ℚ :=
  (((List.range (half + 1)).map (fun j => ((i + j : ℕ) : ℚ))).sum) / (half + 1)

/-- The loop of lines 190-197, threading the in-place modification of
the array: returns the final array state, the accumulated x-positions
and the accumulated diamond means. -/
def slidingDiamondGo (half : ℕ) :
    (ℕ → ℕ → PFloat) → List ℕ →
      (ℕ → ℕ → PFloat) × List ℚ × List (Option ℚ)
  | m, [] => (m, [], [])
  | m, i :: rest =>
    let m1 := diamondStep half m i
    let v := nanmean (diamondCells half m1 i)
    let b := rangeMean i half
    let t := slidingDiamondGo half m1 rest
    (t.1, b :: t.2.1, v :: t.2.2)

/-- `slidingDiamond` (lines 180-198): returns
`(binAccumulator - np.median(binAccumulator), diamondAccumulator)`.
`n` is `array.shape[0]`. -/
def slidingDiamond (m : ℕ → ℕ → PFloat) (n sideLen : ℕ) :
    List ℚ × List (Option ℚ) :=
  let half := sideLen / 2
  let t := slidingDiamondGo half m (List.range (n - half))
  ((t.2.1).map (fun b => b - npMedian t.2.1), t.2.2)

/-- The caller's array after `slidingDiamond` returns (the in-place
writes of line 194 accumulated over the whole loop). -/
def slidingDiamondAfter (m : ℕ → ℕ → PFloat) (n sideLen : ℕ) :
    ℕ → ℕ → PFloat :=
  (slidingDiamondGo (sideLen / 2) m (List.range (n - sideLen / 2))).1

/-! ## `pileToFrame` (HiCTools.py lines 246-258)

A pile of shape `[W, W, N]` is modelled as a function of the three
indices; `pile.flatten()` is the row-major (C-order) flattening, so
flat index `t` addresses `pile (t / (W*N)) ((t % (W*N)) / N)
((t % (W*N)) % N)`. -/

/-- `pile.flatten()` at flat index `t` (C-order). -/
def pileFlatten (W N : ℕ) (pile : ℕ → ℕ → ℕ → ℚ) (t : ℕ) : ℚ :=
  pile (t / (W * N)) (t % (W * N) / N) (t % (W * N) % N)

/-- `pileToFrame`:
`pd.DataFrame(pile.flatten().reshape(pile.shape[0]**2, pile.shape[2])).transpose()`.
The reshape to `(W*W, N)` puts flat index `r*N + k` at row `r`, column
`k`; the transpose makes the table entry at row `k`, column `c` equal
to flat index `c*N + k`.  The result is the table as a list of `N`
rows of `W*W` entries. -/
def pileToFrame (W N : ℕ) (pile : ℕ → ℕ → ℕ → ℚ) : List (List ℚ) :=
  (List.range N).map (fun k =>
    (List.range (W * W)).map (fun c => pileFlatten W N pile (c * N + k)))

/-- Reshaping the table back into a `[W, W, N]` pile, as the spec's
round-trip property describes: entry `(i, j, k)` is read from row `k`,
column `i*W + j`. -/
def frameToPile (W : ℕ) (table : List (List ℚ)) (i j k : ℕ) : ℚ :=
  (table.getD k []).getD (i * W + j) 0

/-! ## `assignRegions2d` (HiCTools.py lines 96-119)

`assignRegions` (lines 75-93) delegates entirely to
`cooltools.snipping.make_bin_aligned_windows` / `assign_regions`
(external collaborators), so its output — a table of windows, each
with an optional region assignment (`NaN` for unassignable positions)
— is taken as the abstract input of the 2D builder.  The filter
`windows["region1"] == windows["region2"]` (line 115) uses pandas
elementwise equality, under which `NaN == NaN` is `False`; the model
makes this explicit in `regionEqPandas`. -/

/-- A chromosomal-arm region `(chrom, start, end)`. -/
abbrev Region := String × ℤ × ℤ

/-- One row of an `assignRegions` output: a window with its optional
region assignment (`none` models `NaN`). -/
structure Window1 where
  chrom : String
  start : ℤ
  «end» : ℤ
  region : Option Region
deriving DecidableEq, Repr

/-- One row of the `assignRegions2d` output, in the renamed schema
`{chrom1, start1, end1, chrom2, start2, end2, region}`. -/
structure Window2 where
  chrom1 : String
  start1 : ℤ
  end1 : ℤ
  chrom2 : String
  start2 : ℤ
  end2 : ℤ
  region : Option Region
deriving DecidableEq, Repr

/-- pandas elementwise `==` on two possibly-NaN region values:
`NaN == NaN` is `False`, `NaN == x` is `False`, and two non-null
regions compare by value. -/
def regionEqPandas : Option Region → Option Region → Bool
  | some a, some b => decide (a = b)
  | _, _ => false

/-- `assignRegions2d` from the two `assignRegions` outputs: pair the
windows row by row (`pd.concat(axis=1)`), keep the rows where
`region1 == region2` in the pandas sense, and project onto the renamed
schema with `region := region1`. -/
def assignRegions2d (ws1 ws2 : List Window1) : List Window2 :=
  ((ws1.zip ws2).filter (fun p => regionEqPandas p.1.region p.2.region)).map
    (fun p =>
      ⟨p.1.chrom, p.1.start, p.1.«end», p.2.chrom, p.2.start, p.2.«end»,
        p.1.region⟩)

/-! ## `getExpected` (HiCTools.py lines 24-53)

`cooltools.expected.diagsum` (external collaborator) returns, per arm
region, a table indexed by diagonal offset with columns `n_valid`
(count of valid — non-NaN-weight — bin pairs), `count.sum` and
`balanced.sum` (sums that skip NaN, hence 0 over an all-NaN diagonal).
`getExpected` concatenates these tables with the region coordinates
attached, aggregates by `(chrom, start, end, diag)` with `sum`, and
adds `balanced.avg = balanced.sum / n_valid` — a pandas float division
that never raises: `0/0` is NaN and `±x/0` is ±Infinity. -/

/-- One `diagsum` record for a single diagonal offset. -/
structure DiagRecord where
  n_valid : ℕ
  countSum : ℚ
  balancedSum : ℚ
deriving DecidableEq, Repr

/-- One row of the final expected-value table. -/
structure ExpRow where
  chrom : String
  start : ℤ
  «end» : ℤ
  diag : ℕ
  n_valid : ℕ
  countSum : ℚ
  balancedSum : ℚ
  balancedAvg : PFloat
deriving DecidableEq, Repr

/-- pandas/numpy float division of a float column by an integer count
column: division by a zero count yields NaN (for a zero numerator) or
±Infinity, never an exception. -/
def pandasDiv (x : ℚ) (n : ℕ) : PFloat :=
  if n = 0 then
    if 0 < x then PFloat.inf else if x < 0 then PFloat.neginf else PFloat.nan
  else PFloat.val (x / n)

/-- `getExpected` downstream of `diagsum`: concatenation with region
assignment (lines 43-44), groupby-sum over `(chrom, start, end, diag)`
(lines 46-49) and the `balanced.avg` column (lines 51-52).  The group
keys are taken in first-occurrence order; the claims proved below do
not depend on row order. -/
def getExpected (inp : List (Region × List (ℕ × DiagRecord))) : List ExpRow :=
  let rows := inp.flatMap (fun p => p.2.map (fun d => (p.1, d)))
  let keys := (rows.map (fun r => (r.1, r.2.1))).dedup
  keys.map (fun k =>
    let grp := rows.filter (fun r => decide ((r.1, r.2.1) = k))
    let nv := (grp.map (fun r => r.2.2.n_valid)).sum
    let cs := (grp.map (fun r => r.2.2.countSum)).sum
    let bs := (grp.map (fun r => r.2.2.balancedSum)).sum
    ⟨k.1.1, k.1.2.1, k.1.2.2, k.2, nv, cs, bs, pandasDiv bs nv⟩)

/-! ## `getPairingScore` normalization (HiCTools.py lines 304-307)

The pairing-score pipeline upstream of the normalization step runs
through the external pileup collaborators; its net result is the
`PairingScore` column, a list of possibly-NaN scores (modelled as
`Option ℚ`).  At the point of line 306 every other column of `output`
is NaN-free (`regions`, `windows` and the merge were each `dropna`-ed),
so `output.dropna()["PairingScore"]` is exactly the list of non-NaN
scores.  With `norm=True` the code subtracts `np.median` of those
from the whole column; `NaN - median` stays NaN. -/

/-- The `norm=True` branch of `getPairingScore` (lines 305-306) applied
to the `PairingScore` column. -/
def getPairingScoreNorm (scores : List (Option ℚ)) : List (Option ℚ) :=
  let m := npMedian (scores.filterMap id)
  scores.map (fun s => s.map (fun q => q - m))

/-! # Theorems -/

/-! ## Helper lemmas -/

theorem takeSampler_ok : SamplerOK takeSampler := by
  intro l n hn
  refine ⟨?_, (List.take_sublist n l).subperm⟩
  simp [takeSampler, List.length_take]
  omega

/-- `downSampleP1` unfolded: the sample dictionary after the first
phase holds exactly the filtered concatenated table under `"all"`. -/
theorem downSampleP1_eq (dist : ℤ) (s : CisTrans) :
    downSampleP1 dist s =
      [("all", distanceFilter dist
        (tagRows s.cis RType.cis ++ tagRows s.trans RType.trans))] := by
  rfl

/-- `combinedFiltered` unfolded. -/
theorem combinedFiltered_eq (dist : ℤ) (s : CisTrans) :
    combinedFiltered dist s =
      distanceFilter dist
        (tagRows s.cis RType.cis ++ tagRows s.trans RType.trans) := by
  rfl

/-- `downSampleP2` unfolded on a dictionary of the shape produced by
`downSampleP1`. -/
theorem downSampleP2_eq (sampler : List TaggedRow → ℕ → List TaggedRow)
    (n : ℕ) (rows : List TaggedRow) :
    downSampleP2 sampler n [("all", rows)] =
      [("cis", (sampler rows n).filter (fun rt => decide (rt.2 = RType.cis))),
       ("trans", (sampler rows n).filter (fun rt => decide (rt.2 = RType.trans)))] := by
  rfl

theorem dictGet_downSampleP2_cis (sampler : List TaggedRow → ℕ → List TaggedRow)
    (n : ℕ) (rows : List TaggedRow) :
    dictGet (downSampleP2 sampler n [("all", rows)]) "cis"
      = (sampler rows n).filter (fun rt => decide (rt.2 = RType.cis)) := by
  rw [downSampleP2_eq]; rfl

theorem dictGet_downSampleP2_trans (sampler : List TaggedRow → ℕ → List TaggedRow)
    (n : ℕ) (rows : List TaggedRow) :
    dictGet (downSampleP2 sampler n [("all", rows)]) "trans"
      = (sampler rows n).filter (fun rt => decide (rt.2 = RType.trans)) := by
  rw [downSampleP2_eq]; rfl

/-- Splitting a tagged table by its tag partitions its rows. -/
theorem length_filter_cis_add_trans (l : List TaggedRow) :
    (l.filter (fun rt => decide (rt.2 = RType.cis))).length
      + (l.filter (fun rt => decide (rt.2 = RType.trans))).length
      = l.length := by
  induction l with
  | nil => rfl
  | cons a t ih =>
    rcases a with ⟨r, ty⟩
    cases ty <;> simp [List.filter_cons] <;> omega

/-- `minReads` never exceeds any sample's filtered row count. -/
theorem minReadsOf_le (samples : List (String × CisTrans)) (dist : ℤ) :
    ∀ p ∈ samples, minReadsOf samples dist ≤ (combinedFiltered dist p.2).length := by
  intro p hp
  unfold minReadsOf
  cases h : (samples.map (fun p => (combinedFiltered dist p.2).length)).min? with
  | none => simp
  | some m =>
    have hall := (List.le_min?_iff (fun a b c => le_min_iff) h).mp (le_refl m)
    have : (combinedFiltered dist p.2).length ∈
        samples.map (fun p => (combinedFiltered dist p.2).length) :=
      List.mem_map_of_mem _ hp
    simpa [h] using hall _ this

/-- Over a nonempty sample dictionary, `minReads` is attained by some
sample. -/
theorem minReadsOf_attained (samples : List (String × CisTrans)) (dist : ℤ)
    (hne : samples ≠ []) :
    ∃ p ∈ samples, minReadsOf samples dist = (combinedFiltered dist p.2).length := by
  cases h : (samples.map (fun p => (combinedFiltered dist p.2).length)).min? with
  | none =>
    rw [List.min?_eq_none_iff, List.map_eq_nil_iff] at h
    exact absurd h hne
  | some m =>
    have hmem := List.min?_mem (fun a b => min_choice a b) h
    rcases List.mem_map.mp hmem with ⟨p, hp, hlen⟩
    exact ⟨p, hp, by simp [minReadsOf, h, hlen]⟩

/-! ## C1 -/

/-- C1 counterexample: the claim states the filter keeps exactly the
pairs with `|pos2 - pos1| > minDistance`, but the code (line 231) uses
the signed difference.  The trans pair `(pos1, pos2) = (100, 0)` has
absolute distance `100 > 10` yet is dropped by `downSamplePairs` with
`minDistance = 10`. -/
theorem c1_filter_not_absolute :
    combinedFiltered 10 ⟨[], [⟨100, 0⟩]⟩ = [] ∧ (10 : ℤ) < |(0 : ℤ) - 100| := by
  constructor
  · rfl
  · decide

/-- C1 (amended): before subsampling, `downSamplePairs` retains exactly
the concatenated cis+trans read pairs whose *signed* genomic distance
`pos2 - pos1` is strictly greater than `minDistance`, with this
identical filter applied to both cis and trans pairs. -/
theorem downSamplePairs_distance_filter (dist : ℤ) (s : CisTrans) (rt : TaggedRow) :
    rt ∈ combinedFiltered dist s ↔
      (rt ∈ tagRows s.cis RType.cis ∨ rt ∈ tagRows s.trans RType.trans)
        ∧ dist < rt.1.pos2 - rt.1.pos1 := by
  rw [combinedFiltered_eq]
  simp [distanceFilter, List.mem_filter, List.mem_append]
  tauto

/-! ## C2 -/

/-- C2: with every sample having at least one pair past the distance
filter, every output sample of `downSamplePairs` has cis and trans
tables whose row counts sum to exactly `minReads`; `minReads` is the
minimum over the samples of the post-filter combined row count (never
above any sample's count, and attained); the draw is without
replacement (the `SamplerOK` hypothesis on the abstracted
`DataFrame.sample`). -/
theorem downSamplePairs_equalizes
    (sampler : List TaggedRow → ℕ → List TaggedRow) (hs : SamplerOK sampler)
    (samples : List (String × CisTrans)) (dist : ℤ)
    (hpos : ∀ p ∈ samples, 0 < (combinedFiltered dist p.2).length) :
    (∀ q ∈ downSamplePairs sampler samples dist,
        (dictGet q.2 "cis").length + (dictGet q.2 "trans").length
          = minReadsOf samples dist)
      ∧ (∀ p ∈ samples,
          minReadsOf samples dist ≤ (combinedFiltered dist p.2).length)
      ∧ (samples ≠ [] →
          ∃ p ∈ samples,
            minReadsOf samples dist = (combinedFiltered dist p.2).length) := by
  refine ⟨?_, minReadsOf_le samples dist, minReadsOf_attained samples dist⟩
  intro q hq
  rcases List.mem_map.mp hq with ⟨p, hp, hqe⟩
  subst hqe
  simp only [downSampleP1_eq, ← combinedFiltered_eq]
  rw [dictGet_downSampleP2_cis, dictGet_downSampleP2_trans,
    length_filter_cis_add_trans]
  exact (hs _ _ (minReadsOf_le samples dist p hp)).1

/-- Concrete sample dictionary for the C2 witness: two samples whose
filtered combined row counts are 2 and 1, so `minReads = 1`. -/
def c2Samples : List (String × CisTrans) :=
  [("s1", ⟨[⟨0, 20⟩, ⟨0, 30⟩], []⟩), ("s2", ⟨[⟨0, 15⟩], [⟨0, 5⟩]⟩)]

/-- C2 witness: the theorem applied to `c2Samples` with the take-prefix
sampler. -/
theorem downSamplePairs_equalizes_witness :
    SamplerOK takeSampler
      ∧ (∀ p ∈ c2Samples, 0 < (combinedFiltered 10 p.2).length)
      ∧ ((∀ q ∈ downSamplePairs takeSampler c2Samples 10,
            (dictGet q.2 "cis").length + (dictGet q.2 "trans").length
              = minReadsOf c2Samples 10)
          ∧ (∀ p ∈ c2Samples,
              minReadsOf c2Samples 10 ≤ (combinedFiltered 10 p.2).length)
          ∧ (c2Samples ≠ [] →
              ∃ p ∈ c2Samples,
                minReadsOf c2Samples 10 = (combinedFiltered 10 p.2).length)) :=
  ⟨takeSampler_ok, by decide,
    downSamplePairs_equalizes takeSampler takeSampler_ok c2Samples 10 (by decide)⟩

/-! ## C10 -/

/-- C10: every per-sample output of `downSamplePairs` is a dictionary
with exactly the keys `"cis"` and `"trans"` in that order (the
intermediate `"all"` table was popped); every row of the `"cis"` table
carries the constant tag `rType = "cis"` and is otherwise a row of that
sample's cis input, and symmetrically for `"trans"`.  (The `rType`
column is absent from the declared input schema: input rows are bare
`PairRow`s, output rows are `PairRow × RType`.) -/
theorem downSamplePairs_output_schema
    (sampler : List TaggedRow → ℕ → List TaggedRow) (hs : SamplerOK sampler)
    (samples : List (String × CisTrans)) (dist : ℤ) :
    ∀ q ∈ downSamplePairs sampler samples dist,
      q.2.map Prod.fst = ["cis", "trans"]
      ∧ ∃ p ∈ samples, q.1 = p.1
          ∧ (∀ rt ∈ dictGet q.2 "cis", rt.2 = RType.cis ∧ rt.1 ∈ p.2.cis)
          ∧ (∀ rt ∈ dictGet q.2 "trans", rt.2 = RType.trans ∧ rt.1 ∈ p.2.trans) := by
  intro q hq
  rcases List.mem_map.mp hq with ⟨p, hp, hqe⟩
  subst hqe
  have hn := minReadsOf_le samples dist p hp
  have hsub : (sampler (combinedFiltered dist p.2) (minReadsOf samples dist)).Subperm
      (combinedFiltered dist p.2) := (hs _ _ hn).2
  have hmem : ∀ rt ∈ sampler (combinedFiltered dist p.2) (minReadsOf samples dist),
      (rt.2 = RType.cis → rt.1 ∈ p.2.cis) ∧ (rt.2 = RType.trans → rt.1 ∈ p.2.trans) := by
    intro rt hrt
    have h1 : rt ∈ combinedFiltered dist p.2 := hsub.subset hrt
    rw [combinedFiltered_eq] at h1
    rcases List.mem_filter.mp h1 with ⟨h2, -⟩
    rcases List.mem_append.mp h2 with h3 | h3 <;>
      rcases List.mem_map.mp h3 with ⟨r, hr, hre⟩ <;>
      rcases rt with ⟨r1, ty⟩ <;>
      cases hre <;>
      exact ⟨fun h => by cases h <;> exact hr, fun h => by cases h <;> exact hr⟩
  constructor
  · show (downSampleP2 sampler _ (downSampleP1 dist p.2)).map Prod.fst = _
    rw [downSampleP1_eq, downSampleP2_eq]
    rfl
  · refine ⟨p, hp, rfl, ?_, ?_⟩ <;>
      show ∀ rt ∈ dictGet (downSampleP2 sampler _ (downSampleP1 dist p.2)) _, _
    · rw [downSampleP1_eq, ← combinedFiltered_eq, dictGet_downSampleP2_cis]
      intro rt hrt
      rcases List.mem_filter.mp hrt with ⟨hin, hty⟩
      have hty : rt.2 = RType.cis := by simpa using hty
      exact ⟨hty, (hmem rt hin).1 hty⟩
    · rw [downSampleP1_eq, ← combinedFiltered_eq, dictGet_downSampleP2_trans]
      intro rt hrt
      rcases List.mem_filter.mp hrt with ⟨hin, hty⟩
      have hty : rt.2 = RType.trans := by simpa using hty
      exact ⟨hty, (hmem rt hin).2 hty⟩

/-- Concrete sample dictionary for the C10 witness. -/
def c10Samples : List (String × CisTrans) :=
  [("s1", ⟨[⟨0, 20⟩, ⟨0, 3⟩], [⟨0, 50⟩]⟩)]

/-- C10 witness: the theorem applied to `c10Samples` with the
take-prefix sampler. -/
theorem downSamplePairs_output_schema_witness :
    SamplerOK takeSampler
      ∧ (∀ q ∈ downSamplePairs takeSampler c10Samples 10,
          q.2.map Prod.fst = ["cis", "trans"]
          ∧ ∃ p ∈ c10Samples, q.1 = p.1
              ∧ (∀ rt ∈ dictGet q.2 "cis", rt.2 = RType.cis ∧ rt.1 ∈ p.2.cis)
              ∧ (∀ rt ∈ dictGet q.2 "trans", rt.2 = RType.trans ∧ rt.1 ∈ p.2.trans)) :=
  ⟨takeSampler_ok,
    downSamplePairs_output_schema takeSampler takeSampler_ok c10Samples 10⟩

/-! ## C9 -/

/-- Concrete input for C9: a single sample whose cis pair `(0, 5)` and
trans pair `(100, 3)` both fail the distance filter at
`minDistance = 10`, so `minReads = 0`. -/
def c9Samples : List (String × CisTrans) :=
  [("s1", ⟨[⟨0, 5⟩], [⟨100, 3⟩]⟩)]

/-- C9: when every sample has zero qualifying rows (`minReads = 0`),
`downSamplePairs` raises nothing and silently returns empty cis and
trans tables — contrary to the spec's requirement that this data error
be explicitly reported.  The theorem evaluates the code at such an
input. -/
theorem downSamplePairs_silent_on_empty :
    minReadsOf c9Samples 10 = 0
    ∧ downSamplePairs takeSampler c9Samples 10 =
        [("s1", [("cis", []), ("trans", [])])] := by
  constructor <;> rfl

/-! ## C6 -/

/-- A 2×2 matrix with an Infinity cell at `(0, 0)`. -/
def c6Matrix : ℕ → ℕ → PFloat :=
  fun r c => if r = 0 ∧ c = 0 then PFloat.inf else PFloat.val 0

/-- C6 is violated by the code: the operations are not read-only on
their inputs.  `slidingDiamond` writes through the numpy view of line
194, so after `slidingDiamond(c6Matrix, sideLen=2)` the caller's array
holds NaN where it held Infinity; and `downSamplePairs` adds the
`rType` column to the caller's cis table in place (line 225), so the
input table's rows change schema.  The theorem evaluates both effects
at concrete inputs. -/
theorem slidingDiamond_mutates_input :
    (c6Matrix 0 0 = PFloat.inf
      ∧ slidingDiamondAfter c6Matrix 2 2 0 0 = PFloat.nan)
    ∧ downSampleInputCisAfter ⟨[⟨0, 5⟩], []⟩ = [(⟨0, 5⟩, RType.cis)] := by
  exact ⟨⟨rfl, rfl⟩, rfl⟩

/-! ## C3 -/

/-- The flat-index arithmetic of `pileToFrame`: flat position
`(i*W + j)*N + k` of the C-order flattening addresses `pile i j k`. -/
theorem pileFlatten_index (W N : ℕ) (pile : ℕ → ℕ → ℕ → ℚ)
    (i j k : ℕ) (hj : j < W) (hk : k < N) :
    pileFlatten W N pile ((i * W + j) * N + k) = pile i j k := by
  have hN : 0 < N := lt_of_le_of_lt (Nat.zero_le k) hk
  have hWN : 0 < W * N := Nat.mul_pos (lt_of_le_of_lt (Nat.zero_le j) hj) hN
  have hr : j * N + k < W * N := by
    calc j * N + k < j * N + N := by omega
    _ = (j + 1) * N := by ring
    _ ≤ W * N := Nat.mul_le_mul_right N hj
  have h1 : (i * W + j) * N + k = (j * N + k) + (W * N) * i := by ring
  have h2 : j * N + k = k + N * j := by ring
  unfold pileFlatten
  rw [h1, Nat.add_mul_div_left _ _ hWN, Nat.div_eq_of_lt hr,
    Nat.add_mul_mod_self_left, Nat.mod_eq_of_lt hr, Nat.zero_add,
    h2, Nat.add_mul_div_left _ _ hN, Nat.div_eq_of_lt hk,
    Nat.add_mul_mod_self_left, Nat.mod_eq_of_lt hk, Nat.zero_add]

/-- C3: for a pile of shape `[W, W, N]`, `pileToFrame` returns a table
of `N` rows and `W*W` columns whose entry at row `k`, column `i*W + j`
is `pile i j k`; consequently reshaping the table back with `W` and `N`
(`frameToPile`) reconstructs the pile exactly. -/
theorem pileToFrame_round_trip (W N : ℕ) (pile : ℕ → ℕ → ℕ → ℚ)
    (i j k : ℕ) (hi : i < W) (hj : j < W) (hk : k < N) :
    (pileToFrame W N pile).length = N
    ∧ (∀ row ∈ pileToFrame W N pile, row.length = W * W)
    ∧ frameToPile W (pileToFrame W N pile) i j k = pile i j k := by
  refine ⟨by simp [pileToFrame], ?_, ?_⟩
  · intro row hrow
    rcases List.mem_map.mp hrow with ⟨a, ha, hre⟩
    subst hre
    simp
  · have hcol : i * W + j < W * W := by
      calc i * W + j < i * W + W := by omega
      _ = (i + 1) * W := by ring
      _ ≤ W * W := Nat.mul_le_mul_right W hi
    have h1 : (pileToFrame W N pile).getD k [] =
        (List.range (W * W)).map (fun c => pileFlatten W N pile (c * N + k)) := by
      unfold pileToFrame
      rw [List.getD_eq_getElem _ _ (by simp; exact hk), List.getElem_map,
        List.getElem_range]
    unfold frameToPile
    rw [h1, List.getD_eq_getElem _ _ (by simp; exact hcol), List.getElem_map,
      List.getElem_range]
    exact pileFlatten_index W N pile i j k hj hk

/-- C3 witness: the theorem applied at `W = 2`, `N = 3`, the pile
`pile i j k = i*100 + j*10 + k`, and indices `(1, 0, 2)`. -/
theorem pileToFrame_round_trip_witness :
    (1 < 2 ∧ 0 < 2 ∧ 2 < 3)
    ∧ ((pileToFrame 2 3 (fun i j k => (i * 100 + j * 10 + k : ℚ))).length = 3
      ∧ (∀ row ∈ pileToFrame 2 3 (fun i j k => (i * 100 + j * 10 + k : ℚ)),
          row.length = 2 * 2)
      ∧ frameToPile 2 (pileToFrame 2 3 (fun i j k => (i * 100 + j * 10 + k : ℚ)))
          1 0 2 = (fun i j k => (i * 100 + j * 10 + k : ℚ)) 1 0 2) :=
  ⟨by norm_num,
    pileToFrame_round_trip 2 3 _ 1 0 2 (by norm_num) (by norm_num) (by norm_num)⟩

/-! ## C4 -/

/-- C4: every row returned by `assignRegions2d` has a non-null region,
and its two source windows both resolved to that same region — no row
survives whose windows resolved to different regions, and a pair whose
regions are both null is excluded as well (pandas `NaN == NaN` is
false). -/
theorem assignRegions2d_regions_match (ws1 ws2 : List Window1)
    (w : Window2) (hw : w ∈ assignRegions2d ws1 ws2) :
    (∃ a : Region, w.region = some a)
    ∧ ∃ w1 w2 : Window1, (w1, w2) ∈ ws1.zip ws2
        ∧ w1.region = w.region ∧ w2.region = w.region := by
  unfold assignRegions2d at hw
  rcases List.mem_map.mp hw with ⟨p, hp, hwe⟩
  rcases List.mem_filter.mp hp with ⟨hzip, heq⟩
  rcases p with ⟨w1, w2⟩
  have hre : ∃ a : Region, w1.region = some a ∧ w2.region = some a := by
    rcases h1 : w1.region with - | a <;> rcases h2 : w2.region with - | b <;>
      simp only [regionEqPandas, h1, h2] at heq
    · cases heq
    · cases heq
    · cases heq
    · exact ⟨a, rfl, by rw [of_decide_eq_true heq]⟩
  rcases hre with ⟨a, h1, h2⟩
  subst hwe
  exact ⟨⟨a, h1⟩, w1, w2, hzip, by simp [h1, h2]⟩

/-- C4 witness: two window lists with one matching pair; the theorem
applied to the single surviving row. -/
theorem assignRegions2d_regions_match_witness :
    (⟨"chr1", 0, 10, "chr1", 20, 30, some ("chr1", 0, 100)⟩ : Window2) ∈
        assignRegions2d
          [⟨"chr1", 0, 10, some ("chr1", 0, 100)⟩, ⟨"chr1", 0, 10, none⟩]
          [⟨"chr1", 20, 30, some ("chr1", 0, 100)⟩, ⟨"chr2", 0, 10, none⟩]
    ∧ ((∃ a : Region,
          (⟨"chr1", 0, 10, "chr1", 20, 30, some ("chr1", 0, 100)⟩ : Window2).region
            = some a)
        ∧ ∃ w1 w2 : Window1,
            (w1, w2) ∈ ([⟨"chr1", 0, 10, some ("chr1", 0, 100)⟩,
                          ⟨"chr1", 0, 10, none⟩] : List Window1).zip
                        [⟨"chr1", 20, 30, some ("chr1", 0, 100)⟩,
                          ⟨"chr2", 0, 10, none⟩]
            ∧ w1.region =
                (⟨"chr1", 0, 10, "chr1", 20, 30, some ("chr1", 0, 100)⟩ : Window2).region
            ∧ w2.region =
                (⟨"chr1", 0, 10, "chr1", 20, 30, some ("chr1", 0, 100)⟩ : Window2).region) :=
  ⟨by decide, assignRegions2d_regions_match _ _ _ (by decide)⟩

/-! ## Median lemmas -/

theorem sortQ_eq_of_sorted (l : List ℚ) (h : l.Sorted (· ≤ ·)) : sortQ l = l :=
  List.eq_of_perm_of_sorted (List.perm_insertionSort _ l)
    (List.sorted_insertionSort _ l) h

theorem sortQ_map_sub (l : List ℚ) (m : ℚ) :
    sortQ (l.map (fun q => q - m)) = (sortQ l).map (fun q => q - m) := by
  apply List.eq_of_perm_of_sorted (r := (· ≤ ·))
  · exact (List.perm_insertionSort _ _).trans
      ((List.perm_insertionSort (· ≤ ·) l).map _).symm
  · exact List.sorted_insertionSort _ _
  · exact List.Pairwise.map (fun q : ℚ => q - m)
      (fun a b hab => sub_le_sub_right hab m)
      (List.sorted_insertionSort (· ≤ ·) l)

theorem sortQ_length (l : List ℚ) : (sortQ l).length = l.length :=
  (List.perm_insertionSort _ l).length_eq

theorem getD_map_sub (s : List ℚ) (m : ℚ) (idx : ℕ) (h : idx < s.length) :
    (s.map (fun q => q - m)).getD idx 0 = s.getD idx 0 - m := by
  rw [List.getD_eq_getElem _ _ (by simpa using h), List.getElem_map,
    List.getD_eq_getElem _ _ h]

/-- Subtracting a constant from every element shifts the median by that
constant. -/
theorem npMedian_map_sub (l : List ℚ) (hl : l ≠ []) (m : ℚ) :
    npMedian (l.map (fun q => q - m)) = npMedian l - m := by
  unfold npMedian
  rw [sortQ_map_sub, List.length_map]
  have hlen : 0 < (sortQ l).length := by
    rw [sortQ_length]
    exact List.length_pos.mpr hl
  by_cases hpar : (sortQ l).length % 2 = 1
  · rw [if_pos hpar, if_pos hpar,
      getD_map_sub _ _ _ (Nat.div_lt_self hlen (by norm_num))]
  · rw [if_neg hpar, if_neg hpar,
      getD_map_sub _ _ _ (by omega), getD_map_sub _ _ _ (by omega)]
    ring

/-- The median of the arithmetic progression `c, 1+c, ..., (M-1)+c`. -/
theorem npMedian_range_add (M : ℕ) (hM : 0 < M) (c : ℚ) :
    npMedian ((List.range M).map (fun i : ℕ => (i : ℚ) + c))
      = ((M : ℚ) - 1) / 2 + c := by
  have hsorted : List.Sorted (· ≤ ·) ((List.range M).map (fun i : ℕ => (i : ℚ) + c)) :=
    List.Pairwise.map (fun i : ℕ => (i : ℚ) + c)
      (fun a b hab => by
        have hq : (a : ℚ) < (b : ℚ) := by exact_mod_cast hab
        exact add_le_add_right hq.le c)
      (List.pairwise_lt_range M)
  unfold npMedian
  rw [sortQ_eq_of_sorted _ hsorted, List.length_map, List.length_range]
  have hget : ∀ idx, idx < M →
      (((List.range M).map (fun i : ℕ => (i : ℚ) + c)).getD idx 0) = (idx : ℚ) + c := by
    intro idx hidx
    rw [List.getD_eq_getElem _ _ (by simp; exact hidx), List.getElem_map,
      List.getElem_range]
  rcases Nat.even_or_odd M with he | ho
  · obtain ⟨k, hk⟩ := he
    subst hk
    have hne : ¬ (k + k) % 2 = 1 := by omega
    have hk1 : 1 ≤ k := by omega
    rw [if_neg hne, hget _ (by omega), hget _ (by omega)]
    have h1 : (k + k) / 2 = k := by omega
    rw [h1]
    push_cast [Nat.cast_sub hk1]
    ring
  · obtain ⟨k, hk⟩ := ho
    subst hk
    have h1 : (2 * k + 1) % 2 = 1 := by omega
    rw [if_pos h1, hget _ (by omega)]
    have h2 : (2 * k + 1) / 2 = k := by omega
    rw [h2]
    push_cast
    ring

theorem sum_map_sub_const (l : List ℚ) (m : ℚ) :
    (l.map (fun b => b - m)).sum = l.sum - l.length * m := by
  induction l with
  | nil => simp
  | cons a t ih =>
    simp only [List.map_cons, List.sum_cons, ih, List.length_cons]
    push_cast
    ring

theorem sum_range_map_add_const (M : ℕ) (c : ℚ) :
    ((List.range M).map (fun i : ℕ => (i : ℚ) + c)).sum
      = (M : ℚ) * ((M : ℚ) - 1) / 2 + (M : ℚ) * c := by
  induction M with
  | zero => simp
  | succ k ih =>
    rw [List.range_succ, List.map_append, List.sum_append]
    simp only [List.map_cons, List.map_nil, List.sum_cons, List.sum_nil, ih]
    push_cast
    ring

/-! ## `slidingDiamond` lemmas -/

/-- The accumulated x-positions do not depend on the matrix: they are
the means `rangeMean i half` in loop order. -/
theorem slidingDiamondGo_bins (half : ℕ) (m : ℕ → ℕ → PFloat) (is : List ℕ) :
    (slidingDiamondGo half m is).2.1 = is.map (fun i => rangeMean i half) := by
  induction is generalizing m with
  | nil => rfl
  | cons i rest ih => simp [slidingDiamondGo, ih]

/-- One diamond mean is produced per loop index. -/
theorem slidingDiamondGo_vals_length (half : ℕ) (m : ℕ → ℕ → PFloat)
    (is : List ℕ) :
    (slidingDiamondGo half m is).2.2.length = is.length := by
  induction is generalizing m with
  | nil => rfl
  | cons i rest ih => simp [slidingDiamondGo, ih]

/-- `np.mean(range(i, i+half+1)) = i + half/2`. -/
theorem rangeMean_eq (i half : ℕ) :
    rangeMean i half = (i : ℚ) + ((half : ℕ) : ℚ) / 2 := by
  unfold rangeMean
  have h : ((List.range (half + 1)).map (fun j => ((i + j : ℕ) : ℚ))).sum
      = ((List.range (half + 1)).map (fun j : ℕ => (j : ℚ) + (i : ℚ))).sum := by
    congr 1
    apply List.map_congr_left
    intro a ha
    push_cast
    ring
  rw [h, sum_range_map_add_const]
  have hpos : ((half : ℚ) + 1) ≠ 0 := by positivity
  push_cast
  field_simp
  ring

/-! ## C5 -/

/-- C5: for a matrix with at least `sideLen/2 + 1` rows (`sideLen` even
or odd), `slidingDiamond` returns exactly `n - sideLen/2` offsets and
`n - sideLen/2` values, and after the median re-centering the offsets
sum to exactly 0. -/
theorem slidingDiamond_spec (m : ℕ → ℕ → PFloat) (n sideLen : ℕ)
    (h : sideLen / 2 + 1 ≤ n) :
    (slidingDiamond m n sideLen).1.length = n - sideLen / 2
    ∧ (slidingDiamond m n sideLen).2.length = n - sideLen / 2
    ∧ (slidingDiamond m n sideLen).1.sum = 0 := by
  have hM1 : 0 < n - sideLen / 2 := by omega
  unfold slidingDiamond
  simp only [slidingDiamondGo_bins, slidingDiamondGo_vals_length]
  have hbins : (List.range (n - sideLen / 2)).map (fun i => rangeMean i (sideLen / 2))
      = (List.range (n - sideLen / 2)).map
          (fun i : ℕ => (i : ℚ) + ((sideLen / 2 : ℕ) : ℚ) / 2) := by
    apply List.map_congr_left
    intro a ha
    exact rangeMean_eq a (sideLen / 2)
  rw [hbins]
  refine ⟨by simp, by simp, ?_⟩
  rw [sum_map_sub_const, sum_range_map_add_const,
    npMedian_range_add _ hM1 _]
  simp only [List.length_map, List.length_range]
  ring

/-- C5 witness: the theorem applied to the all-zero 3×3 matrix with
`sideLen = 2`. -/
theorem slidingDiamond_spec_witness :
    2 / 2 + 1 ≤ 3
    ∧ ((slidingDiamond (fun _ _ => PFloat.val 0) 3 2).1.length = 3 - 2 / 2
      ∧ (slidingDiamond (fun _ _ => PFloat.val 0) 3 2).2.length = 3 - 2 / 2
      ∧ (slidingDiamond (fun _ _ => PFloat.val 0) 3 2).1.sum = 0) :=
  ⟨by norm_num, slidingDiamond_spec (fun _ _ => PFloat.val 0) 3 2 (by norm_num)⟩

/-! ## C7 -/

theorem filterMap_id_map_option (f : ℚ → ℚ) (scores : List (Option ℚ)) :
    (scores.map (fun s => s.map f)).filterMap id = (scores.filterMap id).map f := by
  induction scores with
  | nil => rfl
  | cons a t ih => cases a <;> simp [ih]

theorem map_isNone_map_option (f : ℚ → ℚ) (scores : List (Option ℚ)) :
    (scores.map (fun s => s.map f)).map Option.isNone
      = scores.map Option.isNone := by
  induction scores with
  | nil => rfl
  | cons a t ih => cases a <;> simp [ih]

/-- C7: when `getPairingScore` is called with `norm=True` and at least
one non-NaN score exists, the median of the non-NaN entries of the
returned `PairingScore` column is exactly 0, and an entry is NaN in the
output exactly where it was NaN before the normalization. -/
theorem getPairingScoreNorm_median (scores : List (Option ℚ))
    (h : scores.filterMap id ≠ []) :
    npMedian ((getPairingScoreNorm scores).filterMap id) = 0
    ∧ (getPairingScoreNorm scores).map Option.isNone
        = scores.map Option.isNone := by
  unfold getPairingScoreNorm
  constructor
  · rw [filterMap_id_map_option, npMedian_map_sub _ h]
    ring
  · exact map_isNone_map_option _ _

/-- C7 witness: the theorem applied to the score column
`[1, NaN, 3]`. -/
theorem getPairingScoreNorm_median_witness :
    ([some 1, none, some 3] : List (Option ℚ)).filterMap id ≠ []
    ∧ (npMedian ((getPairingScoreNorm [some 1, none, some 3]).filterMap id) = 0
      ∧ (getPairingScoreNorm [some 1, none, some 3]).map Option.isNone
          = ([some 1, none, some 3] : List (Option ℚ)).map Option.isNone) :=
  ⟨by decide, getPairingScoreNorm_median [some 1, none, some 3] (by decide)⟩

/-! ## C8 -/

/-- C8: in the table returned by `getExpected`, every row's
`balanced.avg` equals `balanced.sum / n_valid` under pandas float
division, and every row with `n_valid = 0` has `balanced.avg = NaN`
(no divide-by-zero error is raised; the division is total).  The
hypothesis records the `diagsum` collaborator's guarantee that its
NaN-skipping sums are 0 on diagonals with no valid bin. -/
theorem getExpected_avg (inp : List (Region × List (ℕ × DiagRecord)))
    (hinv : ∀ p ∈ inp, ∀ d ∈ p.2, d.2.n_valid = 0 → d.2.balancedSum = 0) :
    ∀ row ∈ getExpected inp,
      row.balancedAvg = pandasDiv row.balancedSum row.n_valid
      ∧ (row.n_valid = 0 → row.balancedAvg = PFloat.nan) := by
  intro row hrow
  unfold getExpected at hrow
  rcases List.mem_map.mp hrow with ⟨k, hk, hre⟩
  subst hre
  refine ⟨rfl, ?_⟩
  intro hnv
  simp only at hnv ⊢
  have hall : ∀ r ∈ (inp.flatMap fun p => p.2.map fun d => (p.1, d)).filter
      (fun r => decide ((r.1, r.2.1) = k)), r.2.2.n_valid = 0 := by
    intro r hr
    exact List.sum_eq_zero_iff.mp hnv _ (List.mem_map_of_mem _ hr)
  have hbs : (((inp.flatMap fun p => p.2.map fun d => (p.1, d)).filter
      (fun r => decide ((r.1, r.2.1) = k))).map
        (fun r => r.2.2.balancedSum)).sum = 0 := by
    apply List.sum_eq_zero
    intro x hx
    rcases List.mem_map.mp hx with ⟨r, hr, hxe⟩
    subst hxe
    have hr2 := (List.mem_filter.mp hr).1
    rcases List.mem_flatMap.mp hr2 with ⟨p, hp, hrp⟩
    rcases List.mem_map.mp hrp with ⟨d, hd, hde⟩
    subst hde
    exact hinv p hp d hd (hall _ hr)
  rw [hbs, hnv]
  norm_num [pandasDiv]

/-- Concrete `diagsum` output for the C8 witness: one region with a
valid diagonal and an all-invalid diagonal (`n_valid = 0`, sums 0). -/
def c8Input : List (Region × List (ℕ × DiagRecord)) :=
  [(("chr1", 0, 100), [(2, ⟨3, 5, 6⟩), (3, ⟨0, 2, 0⟩)])]

/-- C8 witness: the theorem applied to `c8Input`. -/
theorem getExpected_avg_witness :
    (∀ p ∈ c8Input, ∀ d ∈ p.2, d.2.n_valid = 0 → d.2.balancedSum = 0)
    ∧ (∀ row ∈ getExpected c8Input,
        row.balancedAvg = pandasDiv row.balancedSum row.n_valid
        ∧ (row.n_valid = 0 → row.balancedAvg = PFloat.nan)) :=
  ⟨by decide, getExpected_avg c8Input (by decide)⟩

end HiCTools
